import Mathlib

/-!
Verification development for the chess-explorer engine core.

The definitions below are a shallow embedding of the search-and-evaluation
engine in chessai.py.  The rules engine (python-chess) is external to the
repository; following the specification it is modelled as an opaque
interface (`Rules`) providing turn queries, legal-move enumeration,
piece-location queries, a canonical position hash, and move application.
A `Board` is the mutable python-chess board: a current position plus the
stack of previous positions (push records the old position, pop restores
it, failing on an empty stack exactly as the python IndexError does).
Fallible code returns Option; the cache and the board are threaded through
every operation as explicit state.

Every numeric constant of the engine (the material values, the three
weights, the search sentinel) is an exact multiple of 0.001, and every
arithmetic operation performed on them (integer-weighted sums, a product
of integer counts scaled by one weight) keeps all intermediate values
exact multiples of 0.001.  Valuations are therefore represented exactly as
integers in units of one thousandth, an order-isomorphic encoding of the
float values of the source; each constant is annotated with the float it
denotes.  The unbounded alpha/beta bounds are modelled by the order
completion `WithBot (WithTop Int)`.
-/

namespace Chess

/-- Value domain for search bounds: valuations (integers in thousandths)
extended with minus and plus infinity, matching the float(-inf) and
float(inf) bounds the searcher is invoked with. -/
abbrev V : Type := WithBot (WithTop ℤ)

/-- Embed a finite valuation into the value domain. -/
def toV (q : ℤ) : V := ((q : WithTop ℤ) : V)

/-- Interface of the external rules engine (python-chess), as consumed by
chessai.py: turn indicator, legal moves, move origin square, piece-location
query by piece type and color, zobrist hash, move application, null move. -/
structure Rules (Pos : Type) (Move : Type) where
  turn : Pos → Bool
  legalMoves : Pos → List Move
  fromSq : Move → Nat
  pieceSquares : Pos → Nat → Bool → List Nat
  zobrist : Pos → Nat
  apply : Pos → Move → Pos
  null : Move

variable {Pos Move : Type}

/-- A python-chess board: current position plus the stack of positions
saved by push, restored by pop. -/
structure Board (Pos : Type) where
  cur : Pos
  hist : List Pos
deriving DecidableEq

/-- Board.push from python-chess: apply a move, saving the old position. -/
def Rules.push (R : Rules Pos Move) (b : Board Pos) (m : Move) : Board Pos :=
  ⟨R.apply b.cur m, b.cur :: b.hist⟩

/-- Board.pop from python-chess: restore the previous position; raises
IndexError (modelled as none) on an empty stack. -/
def Board.pop (b : Board Pos) : Option (Board Pos) :=
  match b.hist with
  | [] => none
  | p :: h => some ⟨p, h⟩

/-- The position cache: a mapping from zobrist keys to valuations
(chessai.py line 13, self.position_cache). -/
abbrev Cache : Type := List (Nat × ℤ)

/-- EvaluationWeights, from ChessAI.init lines 21 to 29.  The white-side
material values 1, 3, 3.3, 4.2, 9, 15 of line 24, in thousandths. -/
def white_piece_values : List ℤ := [1000, 3000, 3300, 4200, 9000, 15000]

/-- Black-side material values: white values scaled by -0.97 (line 25:
black_piece_values = [-0.97*x for x in white_piece_values]).  Every white
value is a multiple of 0.1, i.e. of 100 thousandths, so the scaling is
exact in thousandths. -/
def black_piece_values : List ℤ := white_piece_values.map (fun x => (-97) * x / 100)

/-- The twelve material weights: white then black (line 26). -/
def piece_values : List ℤ := white_piece_values ++ black_piece_values

/-- Mobility weight, line 27 (the float 0.1, in thousandths). -/
def mobility_weight : ℤ := 100

/-- Pawn development weight, line 28 (the float 0.05, in thousandths). -/
def pawn_development_weight : ℤ := 50

/-- Move entropy weight, line 29 (the float 0.25, in thousandths); never
read by the valuation. -/
def move_entropy_weight : ℤ := 250

/-- The piece-type indices iterated by count_pieces: range(1,6) from
line 21, i.e. piece types 1 to 5 only (pawn, knight, bishop, rook, queen:
the king, type 6, is never counted). -/
def piece_indices : List Nat := [1, 2, 3, 4, 5]

/-- ChessAI.build_distribution (lines 56 to 68): multiplicity of each
distinct sample, as an association list. -/
def build_distribution (samples : List Nat) : List (Nat × Nat) :=
  samples.dedup.map (fun s => (s, samples.count s))

/-- ChessAI.get_entropy (lines 41 to 48): the product of the multiplicities
in the distribution.  The true logarithmic entropy computation after the
return statement on line 48 is unreachable and has no counterpart here. -/
def get_entropy (samples : List Nat) : ℤ :=
  ((build_distribution samples).map (fun x => (x.2 : ℤ))).foldl (fun p c => p * c) 1

/-- ChessAI.get_move_starts (lines 121 to 124). -/
def get_move_starts (R : Rules Pos Move) (moves : List Move) : List Nat :=
  moves.map R.fromSq

/-- ChessAI.count_pieces (lines 71 to 83): counts for piece types 1 to 5,
white first then black, giving a 10-element list. -/
def count_pieces (R : Rules Pos Move) (b : Board Pos) : List Nat :=
  piece_indices.map (fun i => (R.pieceSquares b.cur i true).length)
    ++ piece_indices.map (fun i => (R.pieceSquares b.cur i false).length)

/-- ChessAI.get_mobility_features (lines 86 to 119), returning
(white_mobility, black_mobility, white_move_entropy, black_move_entropy)
together with the board it leaves behind.  With white to move it pushes the
null move and pops it; with black to move it first pops the last move off
the stack, measures white on that earlier position, and then pushes the
null move, so the board it leaves behind is not the board it was given. -/
def get_mobility_features (R : Rules Pos Move) (b : Board Pos) :
    Option ((Nat × Nat × ℤ × ℤ) × Board Pos) :=
  if R.turn b.cur then
    let white_moves := R.legalMoves b.cur
    let white_mobility := white_moves.length
    let white_move_entropy := get_entropy (get_move_starts R white_moves)
    let b1 := R.push b R.null
    let black_moves := R.legalMoves b1.cur
    let black_mobility := black_moves.length
    let black_move_entropy := get_entropy (get_move_starts R black_moves)
    b1.pop.map (fun b2 =>
      ((white_mobility, black_mobility, white_move_entropy, black_move_entropy), b2))
  else
    let black_moves := R.legalMoves b.cur
    let black_mobility := black_moves.length
    let black_move_entropy := get_entropy (get_move_starts R black_moves)
    b.pop.map (fun b1 =>
      let white_moves := R.legalMoves b1.cur
      let white_mobility := white_moves.length
      let white_move_entropy := get_entropy (get_move_starts R white_moves)
      ((white_mobility, black_mobility, white_move_entropy, black_move_entropy),
        R.push b1 R.null))

/-- ChessAI.get_pawn_development (lines 127 to 134): per side, the sum of
int(square/8) over that side its pawn squares. -/
def get_pawn_development (R : Rules Pos Move) (b : Board Pos) : Nat × Nat :=
  (((R.pieceSquares b.cur 1 true).map (fun square => square / 8)).sum,
   ((R.pieceSquares b.cur 1 false).map (fun square => square / 8)).sum)

/-- ChessAI.get_heuristic_features (lines 137 to 143).  Note that the
source computes pawn development after the mobility call, i.e. on the
board as left behind by get_mobility_features. -/
def get_heuristic_features (R : Rules Pos Move) (b : Board Pos) :
    Option ((List Nat × (Nat × Nat × ℤ × ℤ) × (Nat × Nat)) × Board Pos) :=
  let pc := count_pieces R b
  (get_mobility_features R b).map (fun y =>
    ((pc, y.1, get_pawn_development R y.2), y.2))

/-- The material loop of heuristic_valuation (lines 163 to 164): each count
multiplied by the weight at the same index.  The zip truncates at the
10 counts the source produces, exactly as python indexing does. -/
def material_sum (pc : List Nat) : ℤ :=
  ((pc.zip piece_values).map (fun x => (x.1 : ℤ) * x.2)).foldl (fun a v => a + v) 0

/-- ChessAI.heuristic_valuation (lines 154 to 169): consult the cache by
zobrist hash, otherwise compute the features, combine them, insert into the
cache and return, together with the cache and board left behind. -/
def heuristic_valuation (R : Rules Pos Move) (c : Cache) (b : Board Pos) :
    Option (ℤ × Cache × Board Pos) :=
  let h := R.zobrist b.cur
  match c.lookup h with
  | some v => some (v, c, b)
  | none =>
    (get_heuristic_features R b).map (fun x =>
      let valuation := material_sum x.1.1
        + (mobility_weight * ((x.1.2.1.1 : ℤ) * x.1.2.1.2.2.1
            - (x.1.2.1.2.1 : ℤ) * x.1.2.1.2.2.2))
        + (pawn_development_weight * ((x.1.2.2.1 : ℤ) - (x.1.2.2.2 : ℤ)))
      (valuation, (h, valuation) :: c, x.2))

/-- ChessAI.evaluate_move (lines 178 to 183): push the move, evaluate
heuristically, pop. -/
def evaluate_move (R : Rules Pos Move) (c : Cache) (b : Board Pos) (m : Move) :
    Option (ℤ × Cache × Board Pos) :=
  (heuristic_valuation R c (R.push b m)).bind (fun x =>
    x.2.2.pop.map (fun b2 => (x.1, x.2.1, b2)))

/-- Key computation performed by the python sorted(...) calls on lines 198
and 212: the key function evaluate_move is called once per legal move, in
move-generation order, threading the cache and the board. -/
def compute_keys (R : Rules Pos Move) :
    List Move → Cache → Board Pos → Option (List (Move × ℤ) × Cache × Board Pos)
  | [], c, b => some ([], c, b)
  | m :: ms, c, b =>
    (evaluate_move R c b m).bind (fun x =>
      (compute_keys R ms x.2.1 x.2.2).map (fun y =>
        ((m, x.1) :: y.1, y.2.1, y.2.2)))

/-- Descending stable sort by key, modelling sorted(..., reverse=True) on
line 198. -/
def sorted_desc (ks : List (Move × ℤ)) : List (Move × ℤ) :=
  ks.insertionSort (fun a b => b.2 ≤ a.2)

/-- Ascending stable sort by key, modelling sorted(...) on line 212. -/
def sorted_asc (ks : List (Move × ℤ)) : List (Move × ℤ) :=
  ks.insertionSort (fun a b => a.2 ≤ b.2)

/-- The player tag of alpha_beta_search.  The source passes the strings
White and Black; the searcher is only ever invoked with these two. -/
inductive Player where
  | white : Player
  | black : Player
deriving DecidableEq

/-- The maximizing loop of alpha_beta_search (lines 198 to 209): push the
move, recurse, pop, raise alpha, cut off when alpha is at least beta. -/
def ab_loop_white (R : Rules Pos Move)
    (recur : Board Pos → V → V → Cache → Option (V × Cache × Board Pos)) :
    List Move → Board Pos → V → V → Cache → Option (V × Cache × Board Pos)
  | [], b, alpha, _, c => some (alpha, c, b)
  | m :: ms, b, alpha, beta, c =>
    (recur (R.push b m) alpha beta c).bind (fun x =>
      x.2.2.pop.bind (fun b2 =>
        let alpha2 := if alpha < x.1 then x.1 else alpha
        if beta ≤ alpha2 then some (alpha2, x.2.1, b2)
        else ab_loop_white R recur ms b2 alpha2 beta x.2.1))

/-- The minimizing loop of alpha_beta_search (lines 212 to 223): push the
move, recurse, pop, lower beta, cut off when alpha is at least beta. -/
def ab_loop_black (R : Rules Pos Move)
    (recur : Board Pos → V → V → Cache → Option (V × Cache × Board Pos)) :
    List Move → Board Pos → V → V → Cache → Option (V × Cache × Board Pos)
  | [], b, _, beta, c => some (beta, c, b)
  | m :: ms, b, alpha, beta, c =>
    (recur (R.push b m) alpha beta c).bind (fun x =>
      x.2.2.pop.bind (fun b2 =>
        let beta2 := if x.1 < beta then x.1 else beta
        if beta2 ≤ alpha then some (beta2, x.2.1, b2)
        else ab_loop_black R recur ms b2 alpha beta2 x.2.1))

/-- ChessAI.alpha_beta_search (lines 191 to 223): at depth 0 evaluate the
leaf heuristically; otherwise compute the one-ply keys for every legal
move, sort (descending for the maximizer, ascending for the minimizer) and
run the corresponding loop, recursing at depth - 1 with the other player. -/
def alpha_beta_search (R : Rules Pos Move) :
    Nat → Board Pos → V → V → Player → Cache → Option (V × Cache × Board Pos)
  | 0, b, _, _, _, c =>
    (heuristic_valuation R c b).map (fun x => (toV x.1, x.2.1, x.2.2))
  | d + 1, b, alpha, beta, Player.white, c =>
    (compute_keys R (R.legalMoves b.cur) c b).bind (fun x =>
      ab_loop_white R
        (fun b2 a2 b3 c2 => alpha_beta_search R d b2 a2 b3 Player.black c2)
        ((sorted_desc x.1).map Prod.fst) x.2.2 alpha beta x.2.1)
  | d + 1, b, alpha, beta, Player.black, c =>
    (compute_keys R (R.legalMoves b.cur) c b).bind (fun x =>
      ab_loop_black R
        (fun b2 a2 b3 c2 => alpha_beta_search R d b2 a2 b3 Player.white c2)
        ((sorted_asc x.1).map Prod.fst) x.2.2 alpha beta x.2.1)

/-- The loop of ChessAI.move_optimization (lines 229 to 236): for each root
legal move, push it, search at the reduced depth with player label White,
pop, and keep the move when its value is strictly below the running
minimum. -/
def mo_loop (R : Rules Pos Move) (alpha beta : V) (d : Nat) :
    List Move → Board Pos → Option Move → V → Cache →
      Option (Option Move × V × Cache × Board Pos)
  | [], b, om, mv, c => some (om, mv, c, b)
  | m :: ms, b, om, mv, c =>
    (alpha_beta_search R d (R.push b m) alpha beta Player.white c).bind (fun x =>
      x.2.2.pop.bind (fun b2 =>
        if x.1 < mv then mo_loop R alpha beta d ms b2 (some m) x.1 x.2.1
        else mo_loop R alpha beta d ms b2 om mv x.2.1))

/-- ChessAI.move_optimization (lines 226 to 240): iterate the root legal
moves tracking the minimum value found, starting from the sentinel 1.0e10
(10 to the 13th in thousandths) and no move; the cache persistence call at the end is file output and has
no observable effect on the returned state modelled here.  The source
passes depth - 1 to the searcher; callers use depth at least 1. -/
def move_optimization (R : Rules Pos Move) (b : Board Pos) (alpha beta : V)
    (depth : Nat) (c : Cache) : Option (Option Move × Cache × Board Pos) :=
  (mo_loop R alpha beta (depth - 1) (R.legalMoves b.cur) b none (toV (10 ^ 13)) c).map
    (fun x => (x.1, x.2.2.1, x.2.2.2))

/-- Outcome of the model-loading branch of ChessAI.init (lines 32 to 39):
whether self.model was set, whether an error was raised to the caller
during construction, and whether the error was merely printed with
execution continuing. -/
structure InitOutcome where
  modelLoaded : Bool
  errorRaisedBeforeSearch : Bool
  errorLoggedAndContinued : Bool
deriving DecidableEq

/-- The model-loading branch of ChessAI.init (lines 32 to 39): when a model
path is supplied and the file exists, the model is loaded; when the file is
missing, an error message is printed and construction continues normally,
raising nothing.  Paths are opaque and the file system is a predicate. -/
def chessai_init_model (pathExists : Nat → Bool) : Option Nat → InitOutcome
  | none => ⟨false, false, false⟩
  | some p => if pathExists p then ⟨true, false, false⟩ else ⟨false, false, true⟩

/-- ChessAI.model_valuation (lines 172 to 176) reaches self.model; when the
model was never loaded the attribute access fails at use time (python
AttributeError), modelled as none.  The classifier itself is external. -/
def model_valuation_attempt (o : InitOutcome) : Option Unit :=
  if o.modelLoaded then some () else none

/-!
Function-level model of the searcher, used for the pruning-equivalence and
selector claims.  Those claims fix the leaf evaluation: they quantify over
a single leaf evaluation function shared by the pruned and the unpruned
traversal.  Accordingly the board is abstracted to a position, a move to
its successor position, and the leaf evaluation to a pure function; the
control flow below is line for line that of alpha_beta_search and
move_optimization.
-/

/-- Exhaustive unpruned minimax over the same move set and the same leaf
evaluation function as the searcher: maximize on white levels, minimize on
black levels, evaluate at depth 0. -/
def minimax (succ : Pos → List Pos) (eval : Pos → ℤ) :
    Bool → Nat → Pos → V
  | _, 0, p => toV (eval p)
  | true, d + 1, p =>
    ((succ p).map (fun q => minimax succ eval false d q)).foldr max ⊥
  | false, d + 1, p =>
    ((succ p).map (fun q => minimax succ eval true d q)).foldr min ⊤

/-- The move ordering of lines 198 and 212 in the function-level model:
children sorted by their one-ply evaluation, descending for the maximizer
and ascending for the minimizer. -/
def order_moves (eval : Pos → ℤ) (maximizing : Bool) (l : List Pos) : List Pos :=
  if maximizing then l.insertionSort (fun p q => eval q ≤ eval p)
  else l.insertionSort (fun p q => eval p ≤ eval q)

/-- Function-level maximizing loop, mirroring lines 198 to 209. -/
def ab_fn_loop_white (recur : Pos → V → V → V) : List Pos → V → V → V
  | [], alpha, _ => alpha
  | p :: ps, alpha, beta =>
    let v := recur p alpha beta
    let alpha2 := if alpha < v then v else alpha
    if beta ≤ alpha2 then alpha2 else ab_fn_loop_white recur ps alpha2 beta

/-- Function-level minimizing loop, mirroring lines 212 to 223. -/
def ab_fn_loop_black (recur : Pos → V → V → V) : List Pos → V → V → V
  | [], _, beta => beta
  | p :: ps, alpha, beta =>
    let v := recur p alpha beta
    let beta2 := if v < beta then v else beta
    if beta2 ≤ alpha then beta2 else ab_fn_loop_black recur ps alpha beta2

/-- Function-level alpha_beta_search (lines 191 to 223) with the leaf
evaluation taken as a pure function of the position. -/
def alpha_beta_fn (succ : Pos → List Pos) (eval : Pos → ℤ) :
    Bool → Nat → Pos → V → V → V
  | _, 0, p, _, _ => toV (eval p)
  | true, d + 1, p, alpha, beta =>
    ab_fn_loop_white (fun q a2 b2 => alpha_beta_fn succ eval false d q a2 b2)
      (order_moves eval true (succ p)) alpha beta
  | false, d + 1, p, alpha, beta =>
    ab_fn_loop_black (fun q a2 b2 => alpha_beta_fn succ eval true d q a2 b2)
      (order_moves eval false (succ p)) alpha beta

/-- Function-level loop of move_optimization (lines 229 to 236): each root
child searched with player label White, keeping the strictly smaller
value. -/
def mo_fn_loop (succ : Pos → List Pos) (eval : Pos → ℤ) (alpha beta : V)
    (d : Nat) : List Pos → Option Pos × V → Option Pos × V
  | [], s => s
  | p :: ps, s =>
    let v := alpha_beta_fn succ eval true d p alpha beta
    if v < s.2 then mo_fn_loop succ eval alpha beta d ps (some p, v)
    else mo_fn_loop succ eval alpha beta d ps s

/-- Function-level move_optimization (lines 226 to 240). -/
def move_optimization_fn (succ : Pos → List Pos) (eval : Pos → ℤ)
    (alpha beta : V) (depth : Nat) (p : Pos) : Option Pos :=
  (mo_fn_loop succ eval alpha beta (depth - 1) (succ p) (none, toV (10 ^ 13))).1

/-!
Concrete rules-engine instances.  The rules engine is external to the
repository, so concrete positions are supplied as data: a small synthetic
instance (Rsmall) exercising the searcher, and the standard chess starting
position (Rstart) with its actual twenty legal moves per side, as the real
rules engine enumerates them.
-/

/-- Small synthetic rules instance: position 0 is a white-to-move root with
two legal moves 0 and 1 leading to positions 1 and 2; position 2 holds one
white queen on square 0; every other position is empty and has no moves.
The null move is 99; applying any move m at p gives p + m + 1. -/
def Rsmall : Rules Nat Nat where
  turn p := decide (p = 0)
  legalMoves p := if p = 0 then [0, 1] else []
  fromSq m := m
  pieceSquares p i c := if p = 2 ∧ i = 5 ∧ c = true then [0] else []
  zobrist p := p
  apply p m := p + m + 1
  null := 99

/-- The root board of the small instance: position 0, empty stack. -/
def rootBoard : Board Nat := ⟨0, []⟩

/-- The board reached by pushing move 0 at the small-instance root: black
to move, one move on the stack. -/
def childBoard : Board Nat := ⟨1, [0]⟩

/-- White legal moves of the standard starting position as (from, to)
square pairs: one single and one double step per pawn, two moves per
knight. -/
def start_white_moves : List (Nat × Nat) :=
  [(8, 16), (9, 17), (10, 18), (11, 19), (12, 20), (13, 21), (14, 22), (15, 23),
   (8, 24), (9, 25), (10, 26), (11, 27), (12, 28), (13, 29), (14, 30), (15, 31),
   (1, 16), (1, 18), (6, 21), (6, 23)]

/-- Black legal moves of the standard starting position after a null move,
as (from, to) square pairs. -/
def start_black_moves : List (Nat × Nat) :=
  [(48, 40), (49, 41), (50, 42), (51, 43), (52, 44), (53, 45), (54, 46), (55, 47),
   (48, 32), (49, 33), (50, 34), (51, 35), (52, 36), (53, 37), (54, 38), (55, 39),
   (57, 40), (57, 42), (62, 45), (62, 47)]

/-- Piece squares of the standard starting position, by piece type and
color (1 pawn, 2 knight, 3 bishop, 4 rook, 5 queen, 6 king). -/
def start_piece_squares (i : Nat) (c : Bool) : List Nat :=
  if c then
    if i = 1 then [8, 9, 10, 11, 12, 13, 14, 15]
    else if i = 2 then [1, 6]
    else if i = 3 then [2, 5]
    else if i = 4 then [0, 7]
    else if i = 5 then [3]
    else if i = 6 then [4] else []
  else
    if i = 1 then [48, 49, 50, 51, 52, 53, 54, 55]
    else if i = 2 then [57, 62]
    else if i = 3 then [58, 61]
    else if i = 4 then [56, 63]
    else if i = 5 then [59]
    else if i = 6 then [60] else []

/-- Rules instance for the standard starting position: position 0 is the
start (white to move), position 1 the start after the null move (black to
move); the piece placement of both is the starting placement. -/
def Rstart : Rules Nat (Nat × Nat) where
  turn p := decide (p = 0)
  legalMoves p := if p = 0 then start_white_moves
    else if p = 1 then start_black_moves else []
  fromSq m := m.1
  pieceSquares p i c := if p = 0 ∨ p = 1 then start_piece_squares i c else []
  zobrist p := p
  apply p _ := p + 1
  null := (99, 99)

/-- The standard starting position as a board: empty stack, white to
move. -/
def startBoard : Board Nat := ⟨0, []⟩

/-!
Definitions following the words of the specification, used to compare the
code against the claimed behavior.
-/

/-- The six piece types of the specification (section 4.2): all six white
piece types first, then all six black ones. -/
def piece_indices_spec : List Nat := [1, 2, 3, 4, 5, 6]

/-- Piece counting as the claim states it: all 12 piece type and color
combinations, six white then six black. -/
def count_pieces_spec (R : Rules Pos Move) (b : Board Pos) : List Nat :=
  piece_indices_spec.map (fun i => (R.pieceSquares b.cur i true).length)
    ++ piece_indices_spec.map (fun i => (R.pieceSquares b.cur i false).length)

/-- Pawn advancement as the claim states it: per side, the sum over that
side of each pawn of its rank distance from the starting rank of that side
(rank 1 for white, rank 6 for black). -/
def get_pawn_development_spec (R : Rules Pos Move) (b : Board Pos) : Nat × Nat :=
  (((R.pieceSquares b.cur 1 true).map (fun square => square / 8 - 1)).sum,
   ((R.pieceSquares b.cur 1 false).map (fun square => 6 - square / 8)).sum)

/-- The legal moves of one side of a board, as the claim reads them: the
side to move uses its legal moves directly, the other side is measured
after the null move passes the turn (specification section 4.2). -/
def side_moves (R : Rules Pos Move) (b : Board Pos) (white : Bool) : List Move :=
  if R.turn b.cur = white then R.legalMoves b.cur
  else R.legalMoves (R.apply b.cur R.null)

/-- Concentration statistic as the claim states it: the raw product, over
the distinct move-origin squares, of the number of moves from each
square. -/
def concentration (R : Rules Pos Move) (moves : List Move) : ℤ :=
  ∏ s ∈ (moves.map R.fromSq).toFinset, (((moves.map R.fromSq).count s : ℤ))

/-- The mobility contribution to valuation as the claim states it. -/
def mobility_contribution_claim (R : Rules Pos Move) (b : Board Pos) : ℤ :=
  mobility_weight *
    (((side_moves R b true).length : ℤ) * concentration R (side_moves R b true)
      - ((side_moves R b false).length : ℤ) * concentration R (side_moves R b false))

/-- Successor function for the function-level witness instance: the root 0
has children 1 and 2. -/
def succSmall (p : Nat) : List Nat := if p = 0 then [1, 2] else []

/-- Leaf evaluation for the function-level witness instance. -/
def evalSmall (p : Nat) : ℤ := (p : ℤ)

/-- Cache extension order: every key already bound keeps its binding. -/
def CacheMono (c c2 : Cache) : Prop :=
  ∀ k w, List.lookup k c = some w → List.lookup k c2 = some w

/-- Relation between an alpha-beta result r and the exact minimax value M
within the window (alpha, beta): below the window the result is between M
and alpha, above the window between beta and M, and inside the window the
result is exactly M. -/
def NodeSpec (alpha beta r M : V) : Prop :=
  (M ≤ alpha → M ≤ r ∧ r ≤ alpha)
    ∧ (beta ≤ M → beta ≤ r ∧ r ≤ M)
    ∧ (alpha < M → M < beta → r = M)

/-- Stronger relation satisfied by the maximizing loop: when every child
value is at most alpha the accumulated alpha is returned unchanged. -/
def LoopSpecW (alpha beta r M : V) : Prop :=
  (M ≤ alpha → r = alpha)
    ∧ (beta ≤ M → beta ≤ r ∧ r ≤ M)
    ∧ (alpha < M → M < beta → r = M)

/-- Stronger relation satisfied by the minimizing loop: when every child
value is at least beta the accumulated beta is returned unchanged. -/
def LoopSpecB (alpha beta r M : V) : Prop :=
  (beta ≤ M → r = beta)
    ∧ (M ≤ alpha → M ≤ r ∧ r ≤ alpha)
    ∧ (alpha < M → M < beta → r = M)

/-!
Lemmas about the board state threaded through the engine.
-/

/-- Popping a board whose stack is known to be a cons yields the saved
position. -/
theorem Board.pop_cons {b : Board Pos} {p : Pos} {t : List Pos}
    (h : b.hist = p :: t) : b.pop = some ⟨p, t⟩ := by
  unfold Board.pop
  rw [h]

/-- Characterization of get_mobility_features with white to move: the
null move is pushed and popped, both sides measured, the board returned
unchanged. -/
theorem get_mobility_features_white {R : Rules Pos Move} {b : Board Pos}
    (ht : R.turn b.cur = true) :
    get_mobility_features R b =
      some (((R.legalMoves b.cur).length,
             (R.legalMoves (R.apply b.cur R.null)).length,
             get_entropy (get_move_starts R (R.legalMoves b.cur)),
             get_entropy (get_move_starts R (R.legalMoves (R.apply b.cur R.null)))), b) := by
  unfold get_mobility_features
  rw [ht]
  rfl

/-- Characterization of get_mobility_features with black to move and a
nonempty stack: black is measured on the given position, but white is
measured on the popped previous position p, and the board left behind is
that previous position with a null move pushed. -/
theorem get_mobility_features_black {R : Rules Pos Move} {b : Board Pos} {p : Pos}
    {t : List Pos} (ht : R.turn b.cur = false) (hb : b.hist = p :: t) :
    get_mobility_features R b =
      some (((R.legalMoves p).length,
             (R.legalMoves b.cur).length,
             get_entropy (get_move_starts R (R.legalMoves p)),
             get_entropy (get_move_starts R (R.legalMoves b.cur))),
            ⟨R.apply p R.null, p :: t⟩) := by
  unfold get_mobility_features
  rw [ht, Board.pop_cons hb]
  rfl

/-- With black to move and an empty stack, get_mobility_features pops the
empty stack and fails. -/
theorem get_mobility_features_black_nil {R : Rules Pos Move} {b : Board Pos}
    (ht : R.turn b.cur = false) (hb : b.hist = []) :
    get_mobility_features R b = none := by
  unfold get_mobility_features
  have hp : b.pop = none := by unfold Board.pop; rw [hb]
  rw [ht, hp]
  rfl

/-- A heuristic evaluation on a cached position returns the cached value
and leaves cache and board untouched. -/
theorem heuristic_valuation_hit {R : Rules Pos Move} {c : Cache} {b : Board Pos}
    {v : ℤ} (hl : List.lookup (R.zobrist b.cur) c = some v) :
    heuristic_valuation R c b = some (v, c, b) := by
  simp only [heuristic_valuation]
  rw [hl]

/-- A cache-miss heuristic evaluation with white to move: the valuation is
computed from the given position only, inserted under the zobrist key, and
the board is returned unchanged. -/
theorem heuristic_valuation_miss_white {R : Rules Pos Move} {c : Cache} {b : Board Pos}
    (hl : List.lookup (R.zobrist b.cur) c = none) (ht : R.turn b.cur = true) :
    heuristic_valuation R c b =
      some (material_sum (count_pieces R b)
          + mobility_weight * (((R.legalMoves b.cur).length : ℤ)
              * get_entropy (get_move_starts R (R.legalMoves b.cur))
            - ((R.legalMoves (R.apply b.cur R.null)).length : ℤ)
              * get_entropy (get_move_starts R (R.legalMoves (R.apply b.cur R.null))))
          + pawn_development_weight * (((get_pawn_development R b).1 : ℤ)
              - ((get_pawn_development R b).2 : ℤ)),
        (R.zobrist b.cur,
          material_sum (count_pieces R b)
          + mobility_weight * (((R.legalMoves b.cur).length : ℤ)
              * get_entropy (get_move_starts R (R.legalMoves b.cur))
            - ((R.legalMoves (R.apply b.cur R.null)).length : ℤ)
              * get_entropy (get_move_starts R (R.legalMoves (R.apply b.cur R.null))))
          + pawn_development_weight * (((get_pawn_development R b).1 : ℤ)
              - ((get_pawn_development R b).2 : ℤ))) :: c,
        b) := by
  simp only [heuristic_valuation]
  rw [hl]
  simp only [get_heuristic_features]
  rw [get_mobility_features_white ht]
  rfl

/-- A cache-miss heuristic evaluation with black to move and a nonempty
stack: white mobility and pawn development are taken from the popped
previous position, and the board left behind is the previous position with
a null move pushed. -/
theorem heuristic_valuation_miss_black {R : Rules Pos Move} {c : Cache} {b : Board Pos}
    {p : Pos} {t : List Pos} (hl : List.lookup (R.zobrist b.cur) c = none)
    (ht : R.turn b.cur = false) (hb : b.hist = p :: t) :
    heuristic_valuation R c b =
      some (material_sum (count_pieces R b)
          + mobility_weight * (((R.legalMoves p).length : ℤ)
              * get_entropy (get_move_starts R (R.legalMoves p))
            - ((R.legalMoves b.cur).length : ℤ)
              * get_entropy (get_move_starts R (R.legalMoves b.cur)))
          + pawn_development_weight
            * (((get_pawn_development R (⟨R.apply p R.null, p :: t⟩ : Board Pos)).1 : ℤ)
              - ((get_pawn_development R (⟨R.apply p R.null, p :: t⟩ : Board Pos)).2 : ℤ)),
        (R.zobrist b.cur,
          material_sum (count_pieces R b)
          + mobility_weight * (((R.legalMoves p).length : ℤ)
              * get_entropy (get_move_starts R (R.legalMoves p))
            - ((R.legalMoves b.cur).length : ℤ)
              * get_entropy (get_move_starts R (R.legalMoves b.cur)))
          + pawn_development_weight
            * (((get_pawn_development R (⟨R.apply p R.null, p :: t⟩ : Board Pos)).1 : ℤ)
              - ((get_pawn_development R (⟨R.apply p R.null, p :: t⟩ : Board Pos)).2 : ℤ)))
          :: c,
        ⟨R.apply p R.null, p :: t⟩) := by
  simp only [heuristic_valuation]
  rw [hl]
  simp only [get_heuristic_features]
  rw [get_mobility_features_black ht hb]
  rfl

/-- A cache-miss heuristic evaluation with black to move and an empty
stack fails: the mobility computation pops the empty stack. -/
theorem heuristic_valuation_black_nil {R : Rules Pos Move} {c : Cache} {b : Board Pos}
    (hl : List.lookup (R.zobrist b.cur) c = none) (ht : R.turn b.cur = false)
    (hb : b.hist = []) :
    heuristic_valuation R c b = none := by
  simp only [heuristic_valuation]
  rw [hl]
  simp only [get_heuristic_features]
  rw [get_mobility_features_black_nil ht hb]
  rfl

/-- A successful heuristic evaluation preserves the move stack: the cache
hit and the white branch leave the board unchanged, and the black branch
pops the last position and pushes the null move onto it, restoring the
stack shape. -/
theorem heuristic_valuation_hist {R : Rules Pos Move} {c : Cache} {b : Board Pos}
    {x : ℤ × Cache × Board Pos} (h : heuristic_valuation R c b = some x) :
    x.2.2.hist = b.hist := by
  cases hl : List.lookup (R.zobrist b.cur) c with
  | some v =>
    rw [heuristic_valuation_hit hl] at h
    cases h
    rfl
  | none =>
    cases ht : R.turn b.cur with
    | true =>
      rw [heuristic_valuation_miss_white hl ht] at h
      cases h
      rfl
    | false =>
      cases hb : b.hist with
      | nil =>
        rw [heuristic_valuation_black_nil hl ht hb] at h
        cases h
      | cons p t =>
        rw [heuristic_valuation_miss_black hl ht hb] at h
        cases h
        rfl

/-- A successful evaluate_move call restores the board exactly: the push
of the move is cancelled either by the pop inside the black mobility
branch (with the outer pop removing the leftover null move) or by the
outer pop itself. -/
theorem evaluate_move_restore {R : Rules Pos Move} {c : Cache} {b : Board Pos}
    {m : Move} {x : ℤ × Cache × Board Pos} (h : evaluate_move R c b m = some x) :
    x.2.2 = b := by
  unfold evaluate_move at h
  rw [Option.bind_eq_some] at h
  obtain ⟨y, hy, h⟩ := h
  have hh : y.2.2.hist = b.cur :: b.hist := heuristic_valuation_hist hy
  rw [Board.pop_cons hh, Option.map_eq_some'] at h
  obtain ⟨b2, hb2, h⟩ := h
  subst h
  simp only [Option.some_inj] at hb2
  subst hb2
  rfl

/-- The key-computation pass of a sorted(...) call restores the board. -/
theorem compute_keys_restore {R : Rules Pos Move} :
    ∀ {ms : List Move} {c : Cache} {b : Board Pos}
      {x : List (Move × ℤ) × Cache × Board Pos},
      compute_keys R ms c b = some x → x.2.2 = b := by
  intro ms
  induction ms with
  | nil =>
    intro c b x h
    cases h
    rfl
  | cons m ms ih =>
    intro c b x h
    unfold compute_keys at h
    rw [Option.bind_eq_some] at h
    obtain ⟨y, hy, h⟩ := h
    rw [Option.map_eq_some'] at h
    obtain ⟨z, hz, h⟩ := h
    subst h
    have hby : y.2.2 = b := evaluate_move_restore hy
    have hbz : z.2.2 = y.2.2 := ih hz
    rw [hbz, hby]

/-- Loop restoration for the maximizing loop: if every recursive call
preserves the stack of the board it is handed, then each pop recovers the
exact board from before the corresponding push, on the normal exit and on
the pruning cutoff alike. -/
theorem ab_loop_white_restore {R : Rules Pos Move}
    {recur : Board Pos → V → V → Cache → Option (V × Cache × Board Pos)}
    (Hrec : ∀ b0 a0 b1 c0 y, recur b0 a0 b1 c0 = some y → y.2.2.hist = b0.hist) :
    ∀ {ms : List Move} {b : Board Pos} {alpha beta : V} {c : Cache}
      {x : V × Cache × Board Pos},
      ab_loop_white R recur ms b alpha beta c = some x → x.2.2 = b := by
  intro ms
  induction ms with
  | nil =>
    intro b alpha beta c x h
    cases h
    rfl
  | cons m ms ih =>
    intro b alpha beta c x h
    simp only [ab_loop_white] at h
    rw [Option.bind_eq_some] at h
    obtain ⟨y, hy, h⟩ := h
    rw [Option.bind_eq_some] at h
    obtain ⟨b2, hb2, h⟩ := h
    have hh : y.2.2.hist = b.cur :: b.hist := Hrec _ _ _ _ _ hy
    rw [Board.pop_cons hh] at hb2
    simp only [Option.some_inj] at hb2
    subst hb2
    generalize (if alpha < y.1 then y.1 else alpha : V) = a2 at h
    split at h
    · cases h
      rfl
    · have h2 : x.2.2 = (⟨b.cur, b.hist⟩ : Board Pos) := ih h
      exact h2

/-- Loop restoration for the minimizing loop. -/
theorem ab_loop_black_restore {R : Rules Pos Move}
    {recur : Board Pos → V → V → Cache → Option (V × Cache × Board Pos)}
    (Hrec : ∀ b0 a0 b1 c0 y, recur b0 a0 b1 c0 = some y → y.2.2.hist = b0.hist) :
    ∀ {ms : List Move} {b : Board Pos} {alpha beta : V} {c : Cache}
      {x : V × Cache × Board Pos},
      ab_loop_black R recur ms b alpha beta c = some x → x.2.2 = b := by
  intro ms
  induction ms with
  | nil =>
    intro b alpha beta c x h
    cases h
    rfl
  | cons m ms ih =>
    intro b alpha beta c x h
    simp only [ab_loop_black] at h
    rw [Option.bind_eq_some] at h
    obtain ⟨y, hy, h⟩ := h
    rw [Option.bind_eq_some] at h
    obtain ⟨b2, hb2, h⟩ := h
    have hh : y.2.2.hist = b.cur :: b.hist := Hrec _ _ _ _ _ hy
    rw [Board.pop_cons hh] at hb2
    simp only [Option.some_inj] at hb2
    subst hb2
    generalize (if y.1 < beta then y.1 else beta : V) = b3 at h
    split at h
    · cases h
      rfl
    · have h2 : x.2.2 = (⟨b.cur, b.hist⟩ : Board Pos) := ih h
      exact h2

/-- Board discipline of the searcher: a successful search preserves the
move stack at every depth, and at depth at least one it returns the exact
board it was given. -/
theorem alpha_beta_search_board {R : Rules Pos Move} :
    ∀ (d : Nat) {b : Board Pos} {alpha beta : V} {pl : Player} {c : Cache}
      {x : V × Cache × Board Pos},
      alpha_beta_search R d b alpha beta pl c = some x →
      x.2.2.hist = b.hist ∧ (d ≠ 0 → x.2.2 = b) := by
  intro d
  induction d with
  | zero =>
    intro b alpha beta pl c x h
    unfold alpha_beta_search at h
    rw [Option.map_eq_some'] at h
    obtain ⟨y, hy, h⟩ := h
    subst h
    exact ⟨heuristic_valuation_hist hy, fun hd => absurd rfl hd⟩
  | succ d ih =>
    intro b alpha beta pl c x h
    cases pl with
    | white =>
      unfold alpha_beta_search at h
      rw [Option.bind_eq_some] at h
      obtain ⟨y, hy, h⟩ := h
      rw [compute_keys_restore hy] at h
      have hx : x.2.2 = b :=
        ab_loop_white_restore (fun b0 a0 b1 c0 z hz => (ih hz).1) h
      exact ⟨by rw [hx], fun _ => hx⟩
    | black =>
      unfold alpha_beta_search at h
      rw [Option.bind_eq_some] at h
      obtain ⟨y, hy, h⟩ := h
      rw [compute_keys_restore hy] at h
      have hx : x.2.2 = b :=
        ab_loop_black_restore (fun b0 a0 b1 c0 z hz => (ih hz).1) h
      exact ⟨by rw [hx], fun _ => hx⟩

/-!
Lemmas about the cache threaded through the engine.
-/

/-- Cache extension is reflexive. -/
theorem cacheMono_refl (c : Cache) : CacheMono c c := fun _ _ h => h

/-- Cache extension is transitive. -/
theorem cacheMono_trans {c1 c2 c3 : Cache} (h1 : CacheMono c1 c2)
    (h2 : CacheMono c2 c3) : CacheMono c1 c3 := fun k w h => h2 k w (h1 k w h)

/-- Inserting a key that is absent preserves every existing binding. -/
theorem cacheMono_insert {c : Cache} {k0 : Nat} {v : ℤ}
    (h0 : List.lookup k0 c = none) : CacheMono c ((k0, v) :: c) := by
  intro k w hk
  by_cases he : k = k0
  · subst he
    rw [hk] at h0
    cases h0
  · have hne : (k == k0) = false := beq_eq_false_iff_ne.mpr he
    show (match k == k0 with
      | true => some v
      | false => List.lookup k c) = some w
    rw [hne]
    exact hk

/-- A heuristic evaluation never overwrites an existing cache binding: on
a hit nothing changes, on a miss a fresh key is prepended. -/
theorem heuristic_valuation_mono {R : Rules Pos Move} {c : Cache} {b : Board Pos}
    {x : ℤ × Cache × Board Pos} (h : heuristic_valuation R c b = some x) :
    CacheMono c x.2.1 := by
  cases hl : List.lookup (R.zobrist b.cur) c with
  | some v =>
    rw [heuristic_valuation_hit hl] at h
    cases h
    exact cacheMono_refl c
  | none =>
    cases ht : R.turn b.cur with
    | true =>
      rw [heuristic_valuation_miss_white hl ht] at h
      cases h
      exact cacheMono_insert hl
    | false =>
      cases hb : b.hist with
      | nil =>
        rw [heuristic_valuation_black_nil hl ht hb] at h
        cases h
      | cons p t =>
        rw [heuristic_valuation_miss_black hl ht hb] at h
        cases h
        exact cacheMono_insert hl

/-- evaluate_move never overwrites an existing cache binding. -/
theorem evaluate_move_mono {R : Rules Pos Move} {c : Cache} {b : Board Pos}
    {m : Move} {x : ℤ × Cache × Board Pos} (h : evaluate_move R c b m = some x) :
    CacheMono c x.2.1 := by
  unfold evaluate_move at h
  rw [Option.bind_eq_some] at h
  obtain ⟨y, hy, h⟩ := h
  rw [Option.map_eq_some'] at h
  obtain ⟨b2, _, h⟩ := h
  subst h
  have h2 : CacheMono c y.2.1 := heuristic_valuation_mono hy
  exact h2

/-- The key-computation pass never overwrites an existing cache binding. -/
theorem compute_keys_mono {R : Rules Pos Move} :
    ∀ {ms : List Move} {c : Cache} {b : Board Pos}
      {x : List (Move × ℤ) × Cache × Board Pos},
      compute_keys R ms c b = some x → CacheMono c x.2.1 := by
  intro ms
  induction ms with
  | nil =>
    intro c b x h
    cases h
    exact cacheMono_refl c
  | cons m ms ih =>
    intro c b x h
    unfold compute_keys at h
    rw [Option.bind_eq_some] at h
    obtain ⟨y, hy, h⟩ := h
    rw [Option.map_eq_some'] at h
    obtain ⟨z, hz, h⟩ := h
    subst h
    have h1 : CacheMono c y.2.1 := evaluate_move_mono hy
    have h2 : CacheMono y.2.1 z.2.1 := ih hz
    exact cacheMono_trans h1 h2

/-- The maximizing loop never overwrites an existing cache binding, given
that the recursive call never does. -/
theorem ab_loop_white_mono {R : Rules Pos Move}
    {recur : Board Pos → V → V → Cache → Option (V × Cache × Board Pos)}
    (Hrec : ∀ b0 a0 b1 c0 y, recur b0 a0 b1 c0 = some y → CacheMono c0 y.2.1) :
    ∀ {ms : List Move} {b : Board Pos} {alpha beta : V} {c : Cache}
      {x : V × Cache × Board Pos},
      ab_loop_white R recur ms b alpha beta c = some x → CacheMono c x.2.1 := by
  intro ms
  induction ms with
  | nil =>
    intro b alpha beta c x h
    cases h
    exact cacheMono_refl c
  | cons m ms ih =>
    intro b alpha beta c x h
    simp only [ab_loop_white] at h
    rw [Option.bind_eq_some] at h
    obtain ⟨y, hy, h⟩ := h
    rw [Option.bind_eq_some] at h
    obtain ⟨b2, _, h⟩ := h
    have h1 : CacheMono c y.2.1 := Hrec _ _ _ _ _ hy
    generalize (if alpha < y.1 then y.1 else alpha : V) = a2 at h
    split at h
    · cases h
      exact h1
    · exact cacheMono_trans h1 (ih h)

/-- The minimizing loop never overwrites an existing cache binding, given
that the recursive call never does. -/
theorem ab_loop_black_mono {R : Rules Pos Move}
    {recur : Board Pos → V → V → Cache → Option (V × Cache × Board Pos)}
    (Hrec : ∀ b0 a0 b1 c0 y, recur b0 a0 b1 c0 = some y → CacheMono c0 y.2.1) :
    ∀ {ms : List Move} {b : Board Pos} {alpha beta : V} {c : Cache}
      {x : V × Cache × Board Pos},
      ab_loop_black R recur ms b alpha beta c = some x → CacheMono c x.2.1 := by
  intro ms
  induction ms with
  | nil =>
    intro b alpha beta c x h
    cases h
    exact cacheMono_refl c
  | cons m ms ih =>
    intro b alpha beta c x h
    simp only [ab_loop_black] at h
    rw [Option.bind_eq_some] at h
    obtain ⟨y, hy, h⟩ := h
    rw [Option.bind_eq_some] at h
    obtain ⟨b2, _, h⟩ := h
    have h1 : CacheMono c y.2.1 := Hrec _ _ _ _ _ hy
    generalize (if y.1 < beta then y.1 else beta : V) = b3 at h
    split at h
    · cases h
      exact h1
    · exact cacheMono_trans h1 (ih h)

/-- The searcher never overwrites an existing cache binding. -/
theorem alpha_beta_search_mono {R : Rules Pos Move} :
    ∀ (d : Nat) {b : Board Pos} {alpha beta : V} {pl : Player} {c : Cache}
      {x : V × Cache × Board Pos},
      alpha_beta_search R d b alpha beta pl c = some x → CacheMono c x.2.1 := by
  intro d
  induction d with
  | zero =>
    intro b alpha beta pl c x h
    unfold alpha_beta_search at h
    rw [Option.map_eq_some'] at h
    obtain ⟨y, hy, h⟩ := h
    subst h
    exact heuristic_valuation_mono hy
  | succ d ih =>
    intro b alpha beta pl c x h
    cases pl with
    | white =>
      unfold alpha_beta_search at h
      rw [Option.bind_eq_some] at h
      obtain ⟨y, hy, h⟩ := h
      exact cacheMono_trans (compute_keys_mono hy)
        (ab_loop_white_mono (fun b0 a0 b1 c0 z hz => ih hz) h)
    | black =>
      unfold alpha_beta_search at h
      rw [Option.bind_eq_some] at h
      obtain ⟨y, hy, h⟩ := h
      exact cacheMono_trans (compute_keys_mono hy)
        (ab_loop_black_mono (fun b0 a0 b1 c0 z hz => ih hz) h)

/-- The selector loop never overwrites an existing cache binding. -/
theorem mo_loop_mono {R : Rules Pos Move} {alpha beta : V} {d : Nat} :
    ∀ {ms : List Move} {b : Board Pos} {om : Option Move} {mv : V} {c : Cache}
      {x : Option Move × V × Cache × Board Pos},
      mo_loop R alpha beta d ms b om mv c = some x → CacheMono c x.2.2.1 := by
  intro ms
  induction ms with
  | nil =>
    intro b om mv c x h
    cases h
    exact cacheMono_refl c
  | cons m ms ih =>
    intro b om mv c x h
    simp only [mo_loop] at h
    rw [Option.bind_eq_some] at h
    obtain ⟨y, hy, h⟩ := h
    rw [Option.bind_eq_some] at h
    obtain ⟨b2, _, h⟩ := h
    have h1 : CacheMono c y.2.1 := alpha_beta_search_mono d hy
    split at h
    · exact cacheMono_trans h1 (ih h)
    · exact cacheMono_trans h1 (ih h)

/-- A full move_optimization run never overwrites an existing cache
binding. -/
theorem move_optimization_mono {R : Rules Pos Move} {b : Board Pos}
    {alpha beta : V} {depth : Nat} {c : Cache}
    {x : Option Move × Cache × Board Pos}
    (h : move_optimization R b alpha beta depth c = some x) :
    CacheMono c x.2.1 := by
  unfold move_optimization at h
  rw [Option.map_eq_some'] at h
  obtain ⟨y, hy, h⟩ := h
  subst h
  exact mo_loop_mono hy

/-!
Pruning equivalence.  The loops of alpha_beta_search satisfy a window
relation against the exact minimax value; with the unbounded window the
relation collapses to equality.
-/

/-- A fold by max over any permutation of a list yields the same value. -/
theorem foldr_max_perm {l l2 : List V} (h : l.Perm l2) :
    l.foldr max ⊥ = l2.foldr max ⊥ := by
  induction h with
  | nil => rfl
  | cons x h ih => simp only [List.foldr_cons, ih]
  | swap x y l => simp only [List.foldr_cons]; rw [max_left_comm]
  | trans h1 h2 ih1 ih2 => rw [ih1, ih2]

/-- A fold by min over any permutation of a list yields the same value. -/
theorem foldr_min_perm {l l2 : List V} (h : l.Perm l2) :
    l.foldr min ⊤ = l2.foldr min ⊤ := by
  induction h with
  | nil => rfl
  | cons x h ih => simp only [List.foldr_cons, ih]
  | swap x y l => simp only [List.foldr_cons]; rw [min_left_comm]
  | trans h1 h2 ih1 ih2 => rw [ih1, ih2]

/-- Unfolding of one step of the maximizing loop. -/
theorem ab_fn_loop_white_cons {Pos : Type} (recur : Pos → V → V → V) (p : Pos)
    (l : List Pos) (alpha beta : V) :
    ab_fn_loop_white recur (p :: l) alpha beta =
      (if beta ≤ (if alpha < recur p alpha beta then recur p alpha beta else alpha)
       then (if alpha < recur p alpha beta then recur p alpha beta else alpha)
       else ab_fn_loop_white recur l
         (if alpha < recur p alpha beta then recur p alpha beta else alpha) beta) := rfl

/-- Unfolding of one step of the minimizing loop. -/
theorem ab_fn_loop_black_cons {Pos : Type} (recur : Pos → V → V → V) (p : Pos)
    (l : List Pos) (alpha beta : V) :
    ab_fn_loop_black recur (p :: l) alpha beta =
      (if (if recur p alpha beta < beta then recur p alpha beta else beta) ≤ alpha
       then (if recur p alpha beta < beta then recur p alpha beta else beta)
       else ab_fn_loop_black recur l alpha
         (if recur p alpha beta < beta then recur p alpha beta else beta)) := rfl

/-- Window relation for the maximizing loop: assuming each recursive call
relates to its exact minimax value, the loop result relates to the
maximum of the child minimax values, with the cutoff never changing the
relation. -/
theorem ab_fn_loop_white_spec {Pos : Type} {recur : Pos → V → V → V} {m : Pos → V}
    (Hrec : ∀ p alpha beta, alpha < beta →
      NodeSpec alpha beta (recur p alpha beta) (m p)) :
    ∀ (l : List Pos) (alpha beta : V), alpha < beta →
      LoopSpecW alpha beta (ab_fn_loop_white recur l alpha beta)
        ((l.map m).foldr max ⊥) := by
  intro l
  induction l with
  | nil =>
    intro alpha beta hab
    refine ⟨fun _ => rfl, fun hb => ?_, fun ha _ => ?_⟩
    · exact absurd (hab.trans_le hb) not_lt_bot
    · exact absurd ha not_lt_bot
  | cons p l ih =>
    intro alpha beta hab
    have hspec : NodeSpec alpha beta (recur p alpha beta) (m p) := Hrec p alpha beta hab
    rw [ab_fn_loop_white_cons]
    simp only [List.map_cons, List.foldr_cons]
    generalize hv : recur p alpha beta = v at hspec ⊢
    by_cases halv : alpha < v
    · simp only [if_pos halv]
      by_cases hcut : beta ≤ v
      · rw [if_pos hcut]
        rcases le_or_lt (m p) alpha with hma | hma
        · exact absurd ((hab.trans_le hcut).trans_le (hspec.1 hma).2) (lt_irrefl _)
        · rcases lt_or_le (m p) beta with hmb | hmb
          · rw [hspec.2.2 hma hmb] at hcut
            exact absurd (hcut.trans_lt hmb) (lt_irrefl _)
          · obtain ⟨hbv, hvm⟩ := hspec.2.1 hmb
            refine ⟨fun hMa => ?_, fun _ => ⟨hbv, hvm.trans (le_max_left _ _)⟩,
              fun _ hMb => ?_⟩
            · exact absurd ((hab.trans_le hmb).trans_le
                ((le_max_left _ _).trans hMa)) (lt_irrefl _)
            · exact absurd ((hmb.trans (le_max_left _ _)).trans_lt hMb) (lt_irrefl _)
      · rw [if_neg hcut]
        have hvb : v < beta := not_le.mp hcut
        have hloop := ih v beta hvb
        rcases le_or_lt (m p) alpha with hma | hma
        · exact absurd (halv.trans_le (hspec.1 hma).2) (lt_irrefl _)
        · rcases lt_or_le (m p) beta with hmb | hmb
          · have hvm : v = m p := hspec.2.2 hma hmb
            subst hvm
            refine ⟨fun hMa => ?_, fun hbM => ?_, fun haM hMb => ?_⟩
            · exact absurd (hma.trans_le ((le_max_left _ _).trans hMa)) (lt_irrefl _)
            · have hbl : beta ≤ (l.map m).foldr max ⊥ := by
                rcases le_max_iff.mp hbM with h1 | h1
                · exact absurd (h1.trans_lt hmb) (lt_irrefl _)
                · exact h1
              obtain ⟨h1, h2⟩ := hloop.2.1 hbl
              exact ⟨h1, h2.trans (le_max_right _ _)⟩
            · rcases le_or_lt ((l.map m).foldr max ⊥) (m p) with hl1 | hl1
              · rw [max_eq_left hl1]
                exact hloop.1 hl1
              · have hMlb : (l.map m).foldr max ⊥ < beta :=
                  (le_max_right (m p) ((l.map m).foldr max ⊥)).trans_lt hMb
                rw [max_eq_right hl1.le]
                exact hloop.2.2 hl1 hMlb
          · exact absurd ((hspec.2.1 hmb).1.trans_lt hvb) (lt_irrefl _)
    · simp only [if_neg halv]
      have hva : v ≤ alpha := not_lt.mp halv
      by_cases hcut : beta ≤ alpha
      · exact absurd (hab.trans_le hcut) (lt_irrefl _)
      · rw [if_neg hcut]
        have hloop := ih alpha beta hab
        have hma : m p ≤ alpha := by
          by_contra hma
          push_neg at hma
          rcases lt_or_le (m p) beta with hmb | hmb
          · rw [hspec.2.2 hma hmb] at hva
            exact absurd (hma.trans_le hva) (lt_irrefl _)
          · exact absurd (hab.trans_le ((hspec.2.1 hmb).1.trans hva)) (lt_irrefl _)
        refine ⟨fun hMa => hloop.1 ((le_max_right _ _).trans hMa), fun hbM => ?_,
          fun haM hMb => ?_⟩
        · have hbl : beta ≤ (l.map m).foldr max ⊥ := by
            rcases le_max_iff.mp hbM with h1 | h1
            · exact absurd (hab.trans_le (h1.trans hma)) (lt_irrefl _)
            · exact h1
          obtain ⟨h1, h2⟩ := hloop.2.1 hbl
          exact ⟨h1, h2.trans (le_max_right _ _)⟩
        · have hml : m p ≤ (l.map m).foldr max ⊥ := by
            by_contra hml
            push_neg at hml
            rw [max_eq_left hml.le] at haM
            exact absurd (haM.trans_le hma) (lt_irrefl _)
          rw [max_eq_right hml] at haM hMb ⊢
          exact hloop.2.2 haM hMb

/-- Window relation for the minimizing loop: the mirror image of the
maximizing case. -/
theorem ab_fn_loop_black_spec {Pos : Type} {recur : Pos → V → V → V} {m : Pos → V}
    (Hrec : ∀ p alpha beta, alpha < beta →
      NodeSpec alpha beta (recur p alpha beta) (m p)) :
    ∀ (l : List Pos) (alpha beta : V), alpha < beta →
      LoopSpecB alpha beta (ab_fn_loop_black recur l alpha beta)
        ((l.map m).foldr min ⊤) := by
  intro l
  induction l with
  | nil =>
    intro alpha beta hab
    refine ⟨fun _ => rfl, fun hMa => ?_, fun _ hMb => ?_⟩
    · exact absurd (hab.trans_le (le_top.trans hMa)) (lt_irrefl _)
    · exact absurd (hMb.trans_le le_top) (lt_irrefl _)
  | cons p l ih =>
    intro alpha beta hab
    have hspec : NodeSpec alpha beta (recur p alpha beta) (m p) := Hrec p alpha beta hab
    rw [ab_fn_loop_black_cons]
    simp only [List.map_cons, List.foldr_cons]
    generalize hv : recur p alpha beta = v at hspec ⊢
    by_cases hvb : v < beta
    · simp only [if_pos hvb]
      by_cases hcut : v ≤ alpha
      · rw [if_pos hcut]
        rcases le_or_lt (m p) alpha with hma | hma
        · obtain ⟨hmv, hva⟩ := hspec.1 hma
          refine ⟨fun hbM => ?_, fun _ => ⟨(min_le_left _ _).trans hmv, hcut⟩,
            fun haM _ => ?_⟩
          · exact absurd (hab.trans_le ((hbM.trans (min_le_left _ _)).trans hma))
              (lt_irrefl _)
          · exact absurd (haM.trans_le ((min_le_left _ _).trans hma)) (lt_irrefl _)
        · rcases lt_or_le (m p) beta with hmb | hmb
          · rw [hspec.2.2 hma hmb] at hcut
            exact absurd (hma.trans_le hcut) (lt_irrefl _)
          · exact absurd ((hspec.2.1 hmb).1.trans_lt hvb) (lt_irrefl _)
      · rw [if_neg hcut]
        have hav : alpha < v := not_le.mp hcut
        have hloop := ih alpha v hav
        rcases le_or_lt (m p) alpha with hma | hma
        · exact absurd ((hspec.1 hma).2.trans_lt hav) (lt_irrefl _)
        · rcases lt_or_le (m p) beta with hmb | hmb
          · have hvm : v = m p := hspec.2.2 hma hmb
            subst hvm
            refine ⟨fun hbM => ?_, fun hMa => ?_, fun haM hMb => ?_⟩
            · exact absurd ((hbM.trans (min_le_left _ _)).trans_lt hmb) (lt_irrefl _)
            · have hla : (l.map m).foldr min ⊤ ≤ alpha := by
                rcases min_le_iff.mp hMa with h1 | h1
                · exact absurd (hma.trans_le h1) (lt_irrefl _)
                · exact h1
              obtain ⟨h1, h2⟩ := hloop.2.1 hla
              exact ⟨(min_le_right _ _).trans h1, h2⟩
            · rcases le_or_lt (m p) ((l.map m).foldr min ⊤) with hl1 | hl1
              · rw [min_eq_left hl1]
                exact hloop.1 hl1
              · have haMl : alpha < (l.map m).foldr min ⊤ :=
                  haM.trans_le (min_le_right (m p) ((l.map m).foldr min ⊤))
                rw [min_eq_right hl1.le]
                exact hloop.2.2 haMl hl1
          · exact absurd ((hspec.2.1 hmb).1.trans_lt hvb) (lt_irrefl _)
    · simp only [if_neg hvb]
      have hbv : beta ≤ v := not_lt.mp hvb
      by_cases hcut : beta ≤ alpha
      · exact absurd (hab.trans_le hcut) (lt_irrefl _)
      · rw [if_neg hcut]
        have hloop := ih alpha beta hab
        have hbm : beta ≤ m p := by
          by_contra hbm
          push_neg at hbm
          rcases le_or_lt (m p) alpha with hma | hma
          · exact absurd (hab.trans_le (hbv.trans (hspec.1 hma).2)) (lt_irrefl _)
          · rw [hspec.2.2 hma hbm] at hbv
            exact absurd (hbv.trans_lt hbm) (lt_irrefl _)
        refine ⟨fun hbM => hloop.1 (hbM.trans (min_le_right _ _)),
          fun hMa => ?_, fun haM hMb => ?_⟩
        · have hla : (l.map m).foldr min ⊤ ≤ alpha := by
            rcases min_le_iff.mp hMa with h1 | h1
            · exact absurd (hab.trans_le (hbm.trans h1)) (lt_irrefl _)
            · exact h1
          obtain ⟨h1, h2⟩ := hloop.2.1 hla
          exact ⟨(min_le_right _ _).trans h1, h2⟩
        · have hml : (l.map m).foldr min ⊤ ≤ m p := by
            by_contra hml
            push_neg at hml
            rw [min_eq_left hml.le] at hMb
            exact absurd (hMb.trans_le hbm) (lt_irrefl _)
          rw [min_eq_right hml] at haM hMb ⊢
          exact hloop.2.2 haM hMb

/-- The ordered child list is a permutation of the raw successor list. -/
theorem order_moves_perm {Pos : Type} (eval : Pos → ℤ) (w : Bool) (l : List Pos) :
    (order_moves eval w l).Perm l := by
  cases w
  · exact List.perm_insertionSort _ l
  · exact List.perm_insertionSort _ l

/-- Window relation for the searcher against exact minimax, at every depth
and for both players, for any window. -/
theorem alpha_beta_fn_spec {Pos : Type} (succ : Pos → List Pos) (eval : Pos → ℤ) :
    ∀ (d : Nat) (w : Bool) (p : Pos) (alpha beta : V), alpha < beta →
      NodeSpec alpha beta (alpha_beta_fn succ eval w d p alpha beta)
        (minimax succ eval w d p) := by
  intro d
  induction d with
  | zero =>
    intro w p alpha beta _
    cases w
    · exact ⟨fun h => ⟨le_rfl, h⟩, fun h => ⟨h, le_rfl⟩, fun _ _ => rfl⟩
    · exact ⟨fun h => ⟨le_rfl, h⟩, fun h => ⟨h, le_rfl⟩, fun _ _ => rfl⟩
  | succ d ih =>
    intro w p alpha beta hab
    cases w
    · have hloop := ab_fn_loop_black_spec
        (fun q a2 b2 h2 => ih true q a2 b2 h2)
        (order_moves eval false (succ p)) alpha beta hab
      have hperm : ((order_moves eval false (succ p)).map
            (minimax succ eval true d)).foldr min ⊤
          = ((succ p).map (minimax succ eval true d)).foldr min ⊤ :=
        foldr_min_perm ((order_moves_perm eval false (succ p)).map _)
      rw [hperm] at hloop
      exact ⟨fun h => hloop.2.1 h,
        fun h => ⟨le_of_eq (hloop.1 h).symm, (hloop.1 h).le.trans h⟩,
        fun h1 h2 => hloop.2.2 h1 h2⟩
    · have hloop := ab_fn_loop_white_spec
        (fun q a2 b2 h2 => ih false q a2 b2 h2)
        (order_moves eval true (succ p)) alpha beta hab
      have hperm : ((order_moves eval true (succ p)).map
            (minimax succ eval false d)).foldr max ⊥
          = ((succ p).map (minimax succ eval false d)).foldr max ⊥ :=
        foldr_max_perm ((order_moves_perm eval true (succ p)).map _)
      rw [hperm] at hloop
      exact ⟨fun h => ⟨h.trans (le_of_eq (hloop.1 h).symm), le_of_eq (hloop.1 h)⟩,
        fun h => hloop.2.1 h,
        fun h1 h2 => hloop.2.2 h1 h2⟩

/-- With the unbounded window the searcher computes exactly the unpruned
minimax value. -/
theorem alpha_beta_fn_eq_minimax {Pos : Type} (succ : Pos → List Pos)
    (eval : Pos → ℤ) (w : Bool) (d : Nat) (p : Pos) :
    alpha_beta_fn succ eval w d p ⊥ ⊤ = minimax succ eval w d p := by
  have hbt : (⊥ : V) < ⊤ := bot_lt_top
  have hspec := alpha_beta_fn_spec succ eval d w p ⊥ ⊤ hbt
  rcases le_or_lt (minimax succ eval w d p) ⊥ with hM | hM
  · rw [le_bot_iff.mp hM]
    exact le_bot_iff.mp (hspec.1 hM).2
  · rcases lt_or_le (minimax succ eval w d p) ⊤ with hM2 | hM2
    · exact hspec.2.2 hM hM2
    · rw [top_le_iff.mp hM2]
      exact top_le_iff.mp (hspec.2.1 hM2).1

/-- Invariant of the selector loop in the function-level model: the
tracked value never increases, ends below the searched value of every
listed child, and the tracked move either is the initial one with the
initial value, or is a listed child whose searched value is the tracked
value. -/
theorem mo_fn_loop_spec {Pos : Type} (succ : Pos → List Pos) (eval : Pos → ℤ)
    (alpha beta : V) (d : Nat) :
    ∀ (l : List Pos) (om : Option Pos) (mv : V),
      (mo_fn_loop succ eval alpha beta d l (om, mv)).2 ≤ mv
      ∧ (∀ q ∈ l, (mo_fn_loop succ eval alpha beta d l (om, mv)).2
          ≤ alpha_beta_fn succ eval true d q alpha beta)
      ∧ ((mo_fn_loop succ eval alpha beta d l (om, mv)).1 = om
            ∧ (mo_fn_loop succ eval alpha beta d l (om, mv)).2 = mv
          ∨ ∃ q ∈ l, (mo_fn_loop succ eval alpha beta d l (om, mv)).1 = some q
              ∧ (mo_fn_loop succ eval alpha beta d l (om, mv)).2
                  = alpha_beta_fn succ eval true d q alpha beta) := by
  intro l
  induction l with
  | nil =>
    intro om mv
    exact ⟨le_rfl, fun q hq => absurd hq (List.not_mem_nil q), Or.inl ⟨rfl, rfl⟩⟩
  | cons p l ih =>
    intro om mv
    simp only [mo_fn_loop]
    by_cases hv : alpha_beta_fn succ eval true d p alpha beta < mv
    · rw [if_pos hv]
      obtain ⟨h1, h2, h3⟩ := ih (some p) (alpha_beta_fn succ eval true d p alpha beta)
      refine ⟨h1.trans hv.le, fun q hq => ?_, ?_⟩
      · rcases List.mem_cons.mp hq with rfl | hq
        · exact h1
        · exact h2 q hq
      · rcases h3 with ⟨ho, hm⟩ | ⟨q, hq, ho, hm⟩
        · exact Or.inr ⟨p, List.mem_cons_self p l, ho, hm⟩
        · exact Or.inr ⟨q, List.mem_cons_of_mem p hq, ho, hm⟩
    · rw [if_neg hv]
      obtain ⟨h1, h2, h3⟩ := ih om mv
      have hmv : mv ≤ alpha_beta_fn succ eval true d p alpha beta := not_lt.mp hv
      refine ⟨h1, fun q hq => ?_, ?_⟩
      · rcases List.mem_cons.mp hq with rfl | hq
        · exact h1.trans hmv
        · exact h2 q hq
      · rcases h3 with ⟨ho, hm⟩ | ⟨q, hq, ho, hm⟩
        · exact Or.inl ⟨ho, hm⟩
        · exact Or.inr ⟨q, List.mem_cons_of_mem p hq, ho, hm⟩

/-- The toFinset of a deduplicated list is the toFinset of the list. -/
theorem list_toFinset_dedup {A : Type} [DecidableEq A] (l : List A) :
    l.dedup.toFinset = l.toFinset := by
  ext a
  simp [List.mem_toFinset, List.mem_dedup]

/-- The entropy the source computes is exactly the claimed concentration
statistic: the product, over the distinct move-origin squares, of the
number of moves from each square. -/
theorem get_entropy_eq_concentration (R : Rules Pos Move) (moves : List Move) :
    get_entropy (get_move_starts R moves) = concentration R moves := by
  unfold get_entropy build_distribution concentration
  rw [List.map_map, ← List.prod_eq_foldl, ← list_toFinset_dedup,
    List.prod_toFinset _ (List.nodup_dedup _)]
  rfl

/-!
The claims.
-/

/-- C1, counterexample: a single heuristic evaluation performed by the
searcher does not restore the board.  On the small instance, evaluating
the black-to-move board reached after one move (a depth 0 top-level call
of the searcher) leaves behind the popped previous position with a null
move pushed: a board with a different current position and a different
canonical hash. -/
theorem c1_single_eval_does_not_restore :
    (alpha_beta_search Rsmall 0 childBoard ⊥ ⊤ Player.black []).map (fun x => x.2.2)
        = some ⟨100, [0]⟩
      ∧ (⟨100, [0]⟩ : Board Nat) ≠ childBoard
      ∧ Rsmall.zobrist 100 ≠ Rsmall.zobrist childBoard.cur := by decide

/-- C1, amended: for every rules engine, board, window, player label and
cache, a successful top-level call of the alpha-beta searcher at depth at
least one returns the exact board it was given: the crossed pop and push
of the black mobility branch is cancelled by the pop of the parent frame,
on the normal exit and on the pruning cutoff alike.  Individual heuristic
evaluations of black-to-move boards do not restore the board (see the
counterexample); depth 0 top-level calls are such evaluations. -/
theorem c1_search_restores_board (R : Rules Pos Move) (b : Board Pos)
    (alpha beta : V) (pl : Player) (d : Nat) (c : Cache)
    (x : V × Cache × Board Pos)
    (h : alpha_beta_search R (d + 1) b alpha beta pl c = some x) :
    x.2.2 = b :=
  (alpha_beta_search_board (d + 1) h).2 (Nat.succ_ne_zero d)

/-- C1, witness: the depth 1 search on the small instance root returns
the root board unchanged. -/
theorem c1_search_restores_board_witness : (⟨0, []⟩ : Board Nat) = rootBoard :=
  c1_search_restores_board Rsmall rootBoard ⊥ ⊤ Player.white 0 []
    (toV 9200, [(2, 9200), (1, 200)], ⟨0, []⟩) (by decide)

/-- C2: for every successor function, every leaf evaluation function,
every player and every depth, the alpha-beta searcher invoked with the
unbounded window returns exactly the value of the exhaustive unpruned
minimax traversal over the same move set and the same leaf evaluation
function; the one-ply move ordering and the cutoff never change the
returned value. -/
theorem c2_pruned_value_equals_minimax {Pos : Type} (succ : Pos → List Pos)
    (eval : Pos → ℤ) (w : Bool) (d : Nat) (p : Pos) :
    alpha_beta_fn succ eval w d p ⊥ ⊤ = minimax succ eval w d p :=
  alpha_beta_fn_eq_minimax succ eval w d p

/-- C3: on the standard starting position the material term is computed
from only 10 piece counts (piece types 1 to 5 per color, kings excluded),
not 12, so the sixth count, the black pawn count, is multiplied by the
sixth weight 15000 (the white king value 15), and the material sum 139764
(139.764) differs from the sum 1590 (1.59) that the claimed 12-count
alignment would give. -/
theorem c3_material_counts_misaligned :
    (count_pieces Rstart startBoard).length = 10
      ∧ count_pieces Rstart startBoard = [8, 2, 2, 2, 1, 8, 2, 2, 2, 1]
      ∧ piece_values.get? 5 = some 15000
      ∧ material_sum (count_pieces Rstart startBoard) = 139764
      ∧ material_sum (count_pieces_spec Rstart startBoard) = 1590
      ∧ material_sum (count_pieces Rstart startBoard)
          ≠ material_sum (count_pieces_spec Rstart startBoard) := by decide

/-- C4: on the standard starting position, where both sides are fully
undeveloped, the pawn-development routine returns the raw rank indices
(8, 48) rather than the claimed rank distances from the starting ranks
(0, 0), and the pawn term of the valuation is -2000 (-2.0), not 0. -/
theorem c4_pawn_development_is_rank_index :
    get_pawn_development Rstart startBoard = (8, 48)
      ∧ get_pawn_development_spec Rstart startBoard = (0, 0)
      ∧ pawn_development_weight * ((8 : ℤ) - 48) = -2000
      ∧ pawn_development_weight
          * (((get_pawn_development_spec Rstart startBoard).1 : ℤ)
            - ((get_pawn_development_spec Rstart startBoard).2 : ℤ)) = 0 := by decide

/-- C5, counterexample: the heuristic valuation of the standard starting
position is 137764 thousandths (the float 137.764), not 0.0. -/
theorem c5_start_valuation_not_zero :
    (heuristic_valuation Rstart [] startBoard).map (fun x => x.1) = some 137764
      ∧ (137764 : ℤ) ≠ 0 := by decide

/-- C5, amended: on the standard starting position the material term is
139764 (139.764, nonzero through the king-weight misalignment and the
asymmetric -0.97 scaling), the pawn development pair is (8, 48) so the
pawn term is -2000 (-2.0), the mobility contribution vanishes by
symmetry, and the returned valuation is exactly 137764 (137.764). -/
theorem c5_start_valuation_exact :
    material_sum (count_pieces Rstart startBoard) = 139764
      ∧ get_pawn_development Rstart startBoard = (8, 48)
      ∧ mobility_contribution_claim Rstart startBoard = 0
      ∧ heuristic_valuation Rstart [] startBoard
          = some (137764, [(0, 137764)], startBoard) := by decide

/-- C6, counterexample: on the small instance the root has white to move
and two legal moves whose searched depth 0 values are 200 and 9200; the
selector returns the move with value 200, the minimal value, not the
maximal one, so the returned move is not the best one from the white root
mover perspective. -/
theorem c6_selector_chooses_minimum_concrete :
    Rsmall.turn rootBoard.cur = true
      ∧ (move_optimization Rsmall rootBoard ⊥ ⊤ 1 []).map (fun x => x.1)
          = some (some 0)
      ∧ (alpha_beta_search Rsmall 0 (Rsmall.push rootBoard 1) ⊥ ⊤ Player.white []).map
          (fun x => x.1) = some (toV 9200)
      ∧ (alpha_beta_search Rsmall 0 (Rsmall.push rootBoard 0) ⊥ ⊤ Player.white []).map
          (fun x => x.1) = some (toV 200)
      ∧ toV 200 < toV 9200 := by decide

/-- C6, amended: the selector searches every root move at depth minus one
with the fixed player label White (not the opponent-relative label) and
returns a root move whose searched value is minimal among all root moves;
this is best from the root mover perspective only when the root mover is
the minimizing side. -/
theorem c6_selector_minimal_value {Pos : Type} (succ : Pos → List Pos)
    (eval : Pos → ℤ) (alpha beta : V) (depth : Nat) (p q : Pos)
    (h : move_optimization_fn succ eval alpha beta depth p = some q) :
    q ∈ succ p ∧ ∀ r2 ∈ succ p,
      alpha_beta_fn succ eval true (depth - 1) q alpha beta
        ≤ alpha_beta_fn succ eval true (depth - 1) r2 alpha beta := by
  unfold move_optimization_fn at h
  obtain ⟨h1, h2, h3⟩ := mo_fn_loop_spec succ eval alpha beta (depth - 1) (succ p)
    none (toV (10 ^ 13))
  rcases h3 with ⟨ho, _⟩ | ⟨q0, hq0, ho, hm⟩
  · rw [h] at ho
    cases ho
  · obtain rfl : q = q0 := Option.some_inj.mp (h.symm.trans ho)
    refine ⟨hq0, fun r2 hr2 => ?_⟩
    rw [← hm]
    exact h2 r2 hr2

/-- C6, witness: on the function-level instance with children 1 and 2 and
values 1 and 2, the selector returns child 1 and its value is below the
value of child 2. -/
theorem c6_selector_minimal_value_witness :
    (1 : Nat) ∈ succSmall 0
      ∧ alpha_beta_fn succSmall evalSmall true 0 1 ⊥ ⊤
          ≤ alpha_beta_fn succSmall evalSmall true 0 2 ⊥ ⊤ :=
  ⟨(c6_selector_minimal_value succSmall evalSmall ⊥ ⊤ 1 0 1 (by decide)).1,
   (c6_selector_minimal_value succSmall evalSmall ⊥ ⊤ 1 0 1 (by decide)).2 2 (by decide)⟩

/-- C7: when a model path is supplied and the artifact file does not
exist, construction prints the error and returns normally (no fatal error
is raised to the caller before search); the failure is deferred until the
model is first used, where the attribute access fails. -/
theorem c7_missing_model_logged_and_deferred :
    chessai_init_model (fun _ => false) (some 0)
        = ⟨false, false, true⟩
      ∧ (chessai_init_model (fun _ => false) (some 0)).errorRaisedBeforeSearch = false
      ∧ model_valuation_attempt (chessai_init_model (fun _ => false) (some 0))
          = none := by decide

/-- C8, counterexample: on the black-to-move board of the small instance
the code values the position at 200 thousandths, while the claimed
formula, with the white side measured by the null-move technique on the
given board, gives 0: with black to move the code measures white on the
popped previous position instead. -/
theorem c8_black_turn_uses_popped_position :
    (heuristic_valuation Rsmall [] childBoard).map (fun x => x.1) = some 200
      ∧ material_sum (count_pieces Rsmall childBoard)
          + mobility_contribution_claim Rsmall childBoard
          + pawn_development_weight
            * (((get_pawn_development Rsmall childBoard).1 : ℤ)
              - ((get_pawn_development Rsmall childBoard).2 : ℤ)) = 0
      ∧ (200 : ℤ) ≠ 0 := by decide

/-- C8, amended: for every board with white to move, a cache-miss
heuristic valuation equals the material sum plus exactly
mobility_weight * (white_mobility * white_concentration
- black_mobility * black_concentration) plus the pawn term, where each
side concentration is the raw product, over the distinct move-origin
squares of that side, of the number of legal moves from that square (the
logarithmic entropy formula is unreachable); with black to move the white
side is instead measured on the popped previous position. -/
theorem c8_mobility_contribution_white_turn (R : Rules Pos Move) (c : Cache)
    (b : Board Pos) (ht : R.turn b.cur = true)
    (hl : List.lookup (R.zobrist b.cur) c = none) :
    heuristic_valuation R c b =
      some (material_sum (count_pieces R b)
          + mobility_contribution_claim R b
          + pawn_development_weight * (((get_pawn_development R b).1 : ℤ)
              - ((get_pawn_development R b).2 : ℤ)),
        (R.zobrist b.cur,
          material_sum (count_pieces R b)
          + mobility_contribution_claim R b
          + pawn_development_weight * (((get_pawn_development R b).1 : ℤ)
              - ((get_pawn_development R b).2 : ℤ))) :: c,
        b) := by
  have hmc : mobility_weight * (((R.legalMoves b.cur).length : ℤ)
        * get_entropy (get_move_starts R (R.legalMoves b.cur))
      - ((R.legalMoves (R.apply b.cur R.null)).length : ℤ)
        * get_entropy (get_move_starts R (R.legalMoves (R.apply b.cur R.null))))
      = mobility_contribution_claim R b := by
    have hsw : side_moves R b true = R.legalMoves b.cur := by
      unfold side_moves
      rw [ht]
      exact if_pos rfl
    have hsb : side_moves R b false = R.legalMoves (R.apply b.cur R.null) := by
      unfold side_moves
      rw [ht]
      exact if_neg (by decide)
    unfold mobility_contribution_claim
    rw [hsw, hsb, get_entropy_eq_concentration, get_entropy_eq_concentration]
  rw [heuristic_valuation_miss_white hl ht, hmc]

/-- C8, witness: the white-turn formula applied to the standard starting
position. -/
theorem c8_mobility_contribution_white_turn_witness :
    heuristic_valuation Rstart [] startBoard =
      some (material_sum (count_pieces Rstart startBoard)
          + mobility_contribution_claim Rstart startBoard
          + pawn_development_weight
            * (((get_pawn_development Rstart startBoard).1 : ℤ)
              - ((get_pawn_development Rstart startBoard).2 : ℤ)),
        (Rstart.zobrist startBoard.cur,
          material_sum (count_pieces Rstart startBoard)
          + mobility_contribution_claim Rstart startBoard
          + pawn_development_weight
            * (((get_pawn_development Rstart startBoard).1 : ℤ)
              - ((get_pawn_development Rstart startBoard).2 : ℤ))) :: [],
        startBoard) :=
  c8_mobility_contribution_white_turn Rstart [] startBoard (by decide) (by decide)

/-- C9: the position cache is append-only and consulted first.  A
heuristic evaluation of a position whose hash is cached returns the
cached value with cache and board untouched; and a successful search or
top-level move optimization never changes the value bound to any key
already present in the cache, whatever depth, window and player label. -/
theorem c9_cache_append_only :
    (∀ (Pos Move : Type) (R : Rules Pos Move) (c : Cache) (b : Board Pos) (v : ℤ),
        List.lookup (R.zobrist b.cur) c = some v →
        heuristic_valuation R c b = some (v, c, b))
      ∧ (∀ (Pos Move : Type) (R : Rules Pos Move) (d : Nat) (b : Board Pos)
          (alpha beta : V) (pl : Player) (c : Cache) (x : V × Cache × Board Pos),
          alpha_beta_search R d b alpha beta pl c = some x →
          ∀ k w, List.lookup k c = some w → List.lookup k x.2.1 = some w)
      ∧ (∀ (Pos Move : Type) (R : Rules Pos Move) (b : Board Pos) (alpha beta : V)
          (depth : Nat) (c : Cache) (x : Option Move × Cache × Board Pos),
          move_optimization R b alpha beta depth c = some x →
          ∀ k w, List.lookup k c = some w → List.lookup k x.2.1 = some w) :=
  ⟨fun _ _ _ _ _ _ h => heuristic_valuation_hit h,
   fun _ _ _ d _ _ _ _ _ _ h => alpha_beta_search_mono d h,
   fun _ _ _ _ _ _ _ _ _ h => move_optimization_mono h⟩

/-- C9, witness: a cached hash is returned unchanged, and the binding of
key 1 survives a depth 1 search and a move optimization run that insert
key 2. -/
theorem c9_cache_append_only_witness :
    heuristic_valuation Rsmall [(1, 200)] childBoard = some (200, [(1, 200)], childBoard)
      ∧ List.lookup 1 [(2, 9200), (1, 200)] = some (200 : ℤ)
      ∧ List.lookup 1 [(2, 9200), (1, 200)] = some (200 : ℤ) := by
  refine ⟨?_, ?_, ?_⟩
  · exact c9_cache_append_only.1 Nat Nat Rsmall [(1, 200)] childBoard 200 (by decide)
  · exact c9_cache_append_only.2.1 Nat Nat Rsmall 1 rootBoard ⊥ ⊤ Player.white
      [(1, 200)] (toV 9200, [(2, 9200), (1, 200)], rootBoard) (by decide) 1 200
      (by decide)
  · exact c9_cache_append_only.2.2 Nat Nat Rsmall rootBoard ⊥ ⊤ 1 [(1, 200)]
      (some 0, [(2, 9200), (1, 200)], rootBoard) (by decide) 1 200 (by decide)

/-- C10: for every board with black to move and an empty move stack, a
cache-miss heuristic evaluation does not return a valuation but fails:
the mobility computation pops the empty move stack before pushing the
null move, so the heuristic evaluation is not total over legal boards. -/
theorem c10_black_empty_stack_eval_fails (R : Rules Pos Move) (c : Cache)
    (b : Board Pos) (hl : List.lookup (R.zobrist b.cur) c = none)
    (ht : R.turn b.cur = false) (hb : b.hist = []) :
    heuristic_valuation R c b = none :=
  heuristic_valuation_black_nil hl ht hb

/-- C10, witness: the black-to-move position 1 of the small instance,
given with an empty stack and an empty cache, fails to evaluate. -/
theorem c10_black_empty_stack_eval_fails_witness :
    heuristic_valuation Rsmall [] (⟨1, []⟩ : Board Nat) = none :=
  c10_black_empty_stack_eval_fails Rsmall [] ⟨1, []⟩ (by decide) (by decide) rfl

end Chess
